import Mathlib

/-!
Shallow embedding of the trustless-bridge-rofl oracle core.

The definitions below are translated from the TypeScript sources:
- `BitcoinConnection.fetchTransactionInfo` / `fetchFromNode` /
  `areResultsConsistent` / `getMostCommonResult` (consensus fetcher),
- `BitcoinActions.calculateAmounts` (fee/UTXO planner),
- `encodeDerSignature` / `toPositiveBuffer` (DER normalization, with the
  `bip66` library's `encode`/`decode` modelled from that library),
- `verifySignature` (message-signature verification wrapper),
- the `TrustlessBridgeOracle` event handlers
  (`handleTransactionProofSubmitted`, `handleBurnGenerateTransaction`,
  `handleBurnValidateTransaction`).

JavaScript numbers that only ever hold integral satoshi amounts,
confirmation counts and byte values are modelled as `Int`/`Nat`; network
calls (provider lookups, contract reads, the remote signer) are modelled
as explicit outcome parameters (`Option`-valued data or functions), since
a thrown exception on the TypeScript side is an absent result here.
-/

/-- Canonical result of a provider lookup (`BitcoinTransactionInfo` in
`BitcoinConnection.ts`).  `sender` is `null` (here `none`) when no input
address could be resolved, `receiver` is the tracked address when it is
among the outputs and `null` otherwise. -/
structure BitcoinTransactionInfo where
  txHash : String
  amount : Int
  sender : Option (List String)
  receiver : Option String
  confirmations : Int
  provider : String
  timestamp : Option Int := none
  blockHeight : Option Int := none
deriving DecidableEq, Repr

/-- The exact-equality grouping key used by `getMostCommonResult`: the
source builds the string key from `amount`, the JSON of `sender`,
`receiver` and `confirmations`, joined by dashes; two results fall in
the same group exactly when these four fields agree (the string key is
injective on them, since the address alphabets and the number prints
contain no ambiguous separators). -/
def resultKey (r : BitcoinTransactionInfo) :
    Int × Option (List String) × Option String × Int :=
  (r.amount, r.sender, r.receiver, r.confirmations)

/-- One step of the occurrence count built by `getMostCommonResult`: the
insertion-ordered map `counts` keyed by `resultKey`, where the stored
representative is the first result seen for its key. -/
def insertResult (acc : List (BitcoinTransactionInfo × Nat))
    (r : BitcoinTransactionInfo) : List (BitcoinTransactionInfo × Nat) :=
  match acc with
  | [] => [(r, 1)]
  | (a, n) :: rest =>
    if resultKey a = resultKey r then (a, n + 1) :: rest
    else (a, n) :: insertResult rest r

/-- The `counts` map of `getMostCommonResult` after processing all
results, in key-insertion order. -/
def countResults (results : List BitcoinTransactionInfo) :
    List (BitcoinTransactionInfo × Nat) :=
  results.foldl insertResult []

/-- The `counts.forEach` maximum search of `getMostCommonResult`:
starting from `maxCount = 0` with default `d = results[0]`, a group
replaces the current best only with a strictly greater count, so the
earliest group among those of maximal count wins. -/
def pickMostCommon (counts : List (BitcoinTransactionInfo × Nat))
    (d : BitcoinTransactionInfo) : BitcoinTransactionInfo :=
  (counts.foldl (fun best e => if best.2 < e.2 then e else best) (d, 0)).1

/-- `BitcoinConnection.getMostCommonResult`.  The empty list throws in
the source (`none` here); a single result is returned directly; otherwise
the representative of the most common `resultKey` group is returned. -/
def getMostCommonResult (results : List BitcoinTransactionInfo) :
    Option BitcoinTransactionInfo :=
  match results with
  | [] => none
  | r :: _ =>
    if results.length = 1 then some r
    else some (pickMostCommon (countResults results) r)

/-- `BitcoinConnection.fetchTransactionInfo`: all providers are queried
(`Promise.allSettled`, which keeps the providers' registration order),
failed or `null` outcomes are discarded, an empty remainder throws
(`none`), otherwise the most common result is returned.  `outcomes` is
the per-provider outcome list: `none` for a rejected promise or `null`
value, `some r` for a usable normalized result. -/
def fetchTransactionInfoConn
    (outcomes : List (Option BitcoinTransactionInfo)) :
    Option BitcoinTransactionInfo :=
  let successfulResults := outcomes.filterMap id
  if successfulResults.isEmpty then none
  else getMostCommonResult successfulResults

/-- One transaction output as seen by the result construction in
`fetchFromNode` / `BitcoinActions.fetchTransactionInfo`: an optional
locking-script address and a value already converted to satoshis. -/
structure TxOutput where
  address : Option String
  value : Int
deriving DecidableEq, Repr

/-- The output scan of `fetchFromNode`: fold over `tx.vout`, and for every
output paying the tracked address add its value to `totalAmount` and set
`isTrackedAddressReceiver`. -/
def scanOutputs (trackedAddress : String) (vout : List TxOutput) :
    Int × Bool :=
  vout.foldl
    (fun acc o =>
      if o.address = some trackedAddress then (acc.1 + o.value, true)
      else acc)
    (0, false)

/-- The result construction at the end of `fetchFromNode`:
`amount = isTrackedAddressReceiver ? totalAmount : 0`,
`sender = senders.length > 0 ? senders : null`,
`receiver = isTrackedAddressReceiver ? trackedAddress : null`. -/
def mkTransactionInfo (trackedAddress txHash : String)
    (vout : List TxOutput) (senders : List String)
    (confirmations : Int) (provider : String) : BitcoinTransactionInfo :=
  let scanned := scanOutputs trackedAddress vout
  { txHash := txHash
    amount := if scanned.2 then scanned.1 else 0
    sender := if senders.isEmpty then none else some senders
    receiver := if scanned.2 then some trackedAddress else none
    confirmations := confirmations
    provider := provider }

/-- Ceiling division on naturals; `ceilDiv a b = Math.ceil (a / b)` for
`0 < b`. -/
def ceilDiv (a b : Nat) : Nat := (a + b - 1) / b

/-- The size estimate of `calculateAmounts`: base 10 bytes plus 148 bytes
per input and 34 bytes per output (legacy P2PKH assumption). -/
def estimatedTxSize (numInputs numOutputs : Nat) : Nat :=
  10 + 148 * numInputs + 34 * numOutputs

/-- `Math.ceil(estimatedTxSizeBytes * feeRateSatPerByte * 1.2)` of
`calculateAmounts`, written with exact arithmetic as
`ceil (size * rate * 6 / 5)`.  The fee rate returned by
`getNetworkFeeRate` is always a whole number of satoshis per byte
(it is produced by `Math.ceil`, `Math.min` with 5, or the constants
2 and 5). -/
def feeWithMargin (feeRateSatPerByte numInputs numOutputs : Nat) : Nat :=
  ceilDiv (estimatedTxSize numInputs numOutputs * feeRateSatPerByte * 6) 5

/-- `BitcoinActions.calculateAmounts`.  After the fee computation all
arithmetic is `BigInt` (`Int` here); a negative change throws
`Not enough funds` and the triple `(amountToSendSat, change, fee)` is
returned otherwise.  The live fee rate query is passed in as
`feeRateSatPerByte`. -/
def calculateAmounts (utxoAmountSat amountToSendSat : Int)
    (feeRateSatPerByte : Nat) (numInputs : Nat) (numOutputs : Nat := 2) :
    Except String (Int × Int × Int) :=
  let fee : Int := feeWithMargin feeRateSatPerByte numInputs numOutputs
  let change := utxoAmountSat - amountToSendSat - fee
  if change < 0 then
    Except.error "Not enough funds to cover destination + fee."
  else
    Except.ok (amountToSendSat, change, fee)

/-- Big-endian byte expansion of a natural number with a fuel argument
(`BN.prototype.toArrayLike(Buffer, be)` for positive values); `fuel ≥ n`
makes the fuel irrelevant. -/
def natBytesBEAux : Nat → Nat → List Nat
  | _, 0 => []
  | 0, _ => []
  | fuel + 1, n + 1 =>
    natBytesBEAux fuel ((n + 1) / 256) ++ [(n + 1) % 256]

/-- `BN.prototype.toArrayLike(Buffer, be)`: minimal big-endian bytes,
with the zero value encoded as the single byte `0x00`. -/
def bnToArrayBE (n : Nat) : List Nat :=
  if n = 0 then [0] else natBytesBEAux n n

/-- Value of a big-endian byte buffer as an unsigned integer. -/
def bytesToNatBE (l : List Nat) : Nat :=
  l.foldl (fun acc b => acc * 256 + b) 0

/-- `toPositiveBuffer` from `BitcoinUtils.ts`: prepend a single `0x00`
byte exactly when the leading byte has its high bit set
(`buf[0] & 0x80`); an empty buffer is returned unchanged (in JavaScript
`undefined & 0x80` is `0`). -/
def toPositiveBuffer (buf : List Nat) : List Nat :=
  match buf with
  | [] => buf
  | b :: _ => if b &&& 128 ≠ 0 then 0 :: buf else buf

/-- The `bip66` library's `encode(r, s)`: guard checks (non-empty, at
most 33 bytes, not negative, not excessively padded) and then the DER
layout `30 len 02 lenR r 02 lenS s`; a failed guard throws (`none`). -/
def bip66encode (r s : List Nat) : Option (List Nat) :=
  if r.length = 0 then none
  else if s.length = 0 then none
  else if 33 < r.length then none
  else if 33 < s.length then none
  else if r.headD 0 &&& 128 ≠ 0 then none
  else if s.headD 0 &&& 128 ≠ 0 then none
  else if 1 < r.length ∧ r.headD 0 = 0 ∧ r.getD 1 0 &&& 128 = 0 then none
  else if 1 < s.length ∧ s.headD 0 = 0 ∧ s.getD 1 0 &&& 128 = 0 then none
  else some ([48, 4 + r.length + s.length, 2, r.length] ++ r
             ++ [2, s.length] ++ s)

/-- The `bip66` library's `decode(buffer)`: the guard chain of the
source, reading bytes by index (`buffer[i]`, in range whenever the
preceding guards passed) and returning the two component slices
`buffer.slice(4, 4 + lenR)` and `buffer.slice(6 + lenR)`. -/
def bip66decode (buffer : List Nat) : Option (List Nat × List Nat) :=
  let len := buffer.length
  if len < 8 then none
  else if 72 < len then none
  else if buffer.getD 0 0 ≠ 48 then none
  else if buffer.getD 1 0 ≠ len - 2 then none
  else if buffer.getD 2 0 ≠ 2 then none
  else
    let lenR := buffer.getD 3 0
    if lenR = 0 then none
    else if len ≤ 5 + lenR then none
    else if buffer.getD (4 + lenR) 0 ≠ 2 then none
    else
      let lenS := buffer.getD (5 + lenR) 0
      if lenS = 0 then none
      else if 6 + lenR + lenS ≠ len then none
      else if buffer.getD 4 0 &&& 128 ≠ 0 then none
      else if 1 < lenR ∧ buffer.getD 4 0 = 0 ∧
              buffer.getD 5 0 &&& 128 = 0 then none
      else if buffer.getD (lenR + 6) 0 &&& 128 ≠ 0 then none
      else if 1 < lenS ∧ buffer.getD (lenR + 6) 0 = 0 ∧
              buffer.getD (lenR + 7) 0 &&& 128 = 0 then none
      else some ((buffer.drop 4).take lenR, buffer.drop (6 + lenR))

/-- `encodeDerSignature` from `BitcoinUtils.ts`: normalize both
components with `toPositiveBuffer` and DER-frame them with
`bip66.encode`. -/
def encodeDerSignature (r s : Nat) : Option (List Nat) :=
  bip66encode (toPositiveBuffer (bnToArrayBE r))
    (toPositiveBuffer (bnToArrayBE s))

/-- `verifySignature`: delegate to `bitcoinMessage.verify(message,
signerAddress, signature, prefix, true)` and turn any thrown error into
`false`.  The external library call is the fallible oracle
`messageVerify` (its `Except.error` case is a throw). -/
def verifySignatureOracle (message signature signerAddress : String)
    (messageVerify : String → String → String → Except String Bool) :
    Bool :=
  match messageVerify message signerAddress signature with
  | Except.ok isValid => isValid
  | Except.error _ => false

/-- A `mint(account, amount, txHash)` contract call issued by the
`TransactionProofSubmitted` handler. -/
structure MintCall where
  account : String
  amount : Int
  txHash : String
deriving DecidableEq, Repr

/-- A burn record as read from `contract.burnData(burnId)`. -/
structure BurnRecord where
  user : String
  amount : Int
  timestamp : Int
  bitcoinAddress : String
  status : Nat
  transactionHash : String
deriving DecidableEq, Repr

/-- Observable side effects of the burn handlers. -/
inductive OracleAction where
  | build (destination : String) (amount : Int)
  | burnSigned (burnId : Nat) (rawTx : String) (txHash : String)
  | broadcast (rawTxHex : String)
  | validateBurn (burnId : Nat)
deriving DecidableEq, Repr

/-- `handleTransactionProofSubmitted(txHash, signature, ethereumAddress)`:
fetch the transaction facts for `txHash.slice(2)`; `isValid` is false
unless the sender list is non-null with exactly one entry, in which case
the signature is verified over `txHash + ethereumAddress` against that
sender; on success `mint(ethereumAddress, txInfo.amount, txHash)` is
called.  A throwing fetch (`none`) is caught and nothing happens. -/
def handleTransactionProofSubmitted
    (txHash signature ethereumAddress : String)
    (fetch : String → Option BitcoinTransactionInfo)
    (verify : String → String → String → Bool) : Option MintCall :=
  match fetch (txHash.drop 2) with
  | none => none
  | some txInfo =>
    let isValid :=
      match txInfo.sender with
      | some [a] => verify (txHash ++ ethereumAddress) signature a
      | _ => false
    if isValid then
      some { account := ethereumAddress, amount := txInfo.amount,
             txHash := txHash }
    else none

/-- `handleBurnGenerateTransaction(burnId)`: read the record
(`none` when `burnData` throws); only when `status == 1` call
`generateAndSignTransaction(record.bitcoinAddress, record.amount)`,
then `burnSigned(burnId, rawTx, '0x' + txHash)` and broadcast; a
throwing build (`none`) is caught and produces no further action. -/
def handleBurnGenerateTransaction (burnId : Nat)
    (burnInfo : Option BurnRecord)
    (generateAndSign : String → Int → Option (String × String)) :
    List OracleAction :=
  match burnInfo with
  | none => []
  | some info =>
    if info.status = 1 then
      match generateAndSign info.bitcoinAddress info.amount with
      | none => []
      | some (rawTxHex, txHash) =>
        [OracleAction.build info.bitcoinAddress info.amount,
         OracleAction.burnSigned burnId rawTxHex ("0x" ++ txHash),
         OracleAction.broadcast rawTxHex]
    else []

/-- `handleBurnValidateTransaction(burnId)`: read the record; only when
`status == 2` fetch the record's transaction
(`record.transactionHash.slice(2)`); call `validateBurn(burnId)` exactly
when the fetch succeeds with `confirmations >= 6`. -/
def handleBurnValidateTransaction (burnId : Nat)
    (burnInfo : Option BurnRecord)
    (fetch : String → Option BitcoinTransactionInfo) :
    List OracleAction :=
  match burnInfo with
  | none => []
  | some info =>
    if info.status = 2 then
      match fetch (info.transactionHash.drop 2) with
      | none => []
      | some txInfo =>
        if 6 ≤ txInfo.confirmations then [OracleAction.validateBurn burnId]
        else []
    else []

/-- Concrete transaction facts whose only output pays the tracked address
a zero value: the receiver is tracked but the credited amount is zero. -/
def cexZeroOutputInfo : BitcoinTransactionInfo :=
  mkTransactionInfo "tb1qtracked" "deadbeef"
    [{ address := some "tb1qtracked", value := 0 }] [] 1 "node-a"

/-- Concrete burn record in status `Requested` (0). -/
def cexBurnRecordRequested : BurnRecord :=
  { user := "0xuser", amount := 1000, timestamp := 0,
    bitcoinAddress := "mdest", status := 0, transactionHash := "0x00" }

/-- Concrete burn record in status `GenerateRequested` (1). -/
def witBurnRecordGenerate : BurnRecord :=
  { user := "0xuser", amount := 1000, timestamp := 0,
    bitcoinAddress := "mdest", status := 1, transactionHash := "0x00" }

/-- Concrete burn record in status `Signed` (2). -/
def witBurnRecordSigned : BurnRecord :=
  { user := "0xuser", amount := 1000, timestamp := 0,
    bitcoinAddress := "mdest", status := 2, transactionHash := "0xabcd" }

/-- A build step that always succeeds with a fixed signed transaction. -/
def witGenerateAndSign : String → Int → Option (String × String) :=
  fun _ _ => some ("0200aa", "ff00")

/-- Concrete transaction facts with one resolvable sender, used at the
claimant-proof and confirmation-check witnesses. -/
def witSenderInfo : BitcoinTransactionInfo :=
  { txHash := "abcd", amount := 42, sender := some ["msender"],
    receiver := some "tb1qtracked", confirmations := 7, provider := "p1" }

/-!
Theorems.  Each claim's theorem is stated over the definitions above;
helper lemmas are shared.
-/

/-- C9: the verification wrapper always produces a boolean: a library
error (malformed signature, decoding failure) is caught and yields
`false`, and the wrapper returns `true` exactly when the underlying
Bitcoin message verification (invoked with segwit recovery enabled)
reports the signature valid for the message and claimed address. -/
theorem verifySignatureOracle_spec
    (message signature signerAddress : String)
    (messageVerify : String → String → String → Except String Bool) :
    (verifySignatureOracle message signature signerAddress messageVerify =
        true ↔
      messageVerify message signerAddress signature = Except.ok true)
    ∧ (∀ e, messageVerify message signerAddress signature =
        Except.error e →
        verifySignatureOracle message signature signerAddress messageVerify
          = false)
    ∧ (verifySignatureOracle message signature signerAddress messageVerify
        = true ∨
       verifySignatureOracle message signature signerAddress messageVerify
        = false) := by
  unfold verifySignatureOracle
  rcases h : messageVerify message signerAddress signature with e | b
  · simp [h]
  · cases b <;> simp [h]

/-- Witness for C9 at a concrete erroring verifier. -/
theorem verifySignatureOracle_spec_witness :
    verifySignatureOracle "m" "sig" "addr"
      (fun _ _ _ => Except.error "bad") = false :=
  (verifySignatureOracle_spec "m" "sig" "addr"
    (fun _ _ _ => Except.error "bad")).2.1 "bad" rfl

/-- Helper: characterization of the mint call produced by the
`TransactionProofSubmitted` handler. -/
theorem handleTPS_some_iff (txHash signature ethereumAddress : String)
    (fetch : String → Option BitcoinTransactionInfo)
    (verify : String → String → String → Bool) (c : MintCall) :
    handleTransactionProofSubmitted txHash signature ethereumAddress
        fetch verify = some c ↔
      ∃ t a, fetch (txHash.drop 2) = some t ∧ t.sender = some [a] ∧
        verify (txHash ++ ethereumAddress) signature a = true ∧
        c = { account := ethereumAddress, amount := t.amount,
              txHash := txHash } := by
  unfold handleTransactionProofSubmitted
  rcases hf : fetch (txHash.drop 2) with _ | t
  · simp
  · rcases hs : t.sender with _ | (_ | ⟨a, _ | ⟨b, tl⟩⟩)
    · simp [hs]
    · simp [hs]
    · by_cases hv : verify (txHash ++ ethereumAddress) signature a = true
      · simp [hs, hv]
        exact eq_comm
      · simp [hs, hv]
    · simp [hs]

/-- C1: the `TransactionProofSubmitted` handler issues a mint call iff
the fetched facts carry a sender set with exactly one element and the
signature verifies over the transaction hash concatenated with the
claimant address against that sender; a null, empty or multi-element
sender set never mints, and a mint call carries the claimant, the
fetched amount and the transaction hash. -/
theorem handleTransactionProofSubmitted_spec
    (txHash signature ethereumAddress : String)
    (fetch : String → Option BitcoinTransactionInfo)
    (verify : String → String → String → Bool) :
    ((handleTransactionProofSubmitted txHash signature ethereumAddress
        fetch verify).isSome ↔
      ∃ t a, fetch (txHash.drop 2) = some t ∧ t.sender = some [a] ∧
        verify (txHash ++ ethereumAddress) signature a = true)
    ∧ (∀ t c, fetch (txHash.drop 2) = some t →
        handleTransactionProofSubmitted txHash signature ethereumAddress
          fetch verify = some c →
        c = { account := ethereumAddress, amount := t.amount,
              txHash := txHash })
    ∧ (∀ t, fetch (txHash.drop 2) = some t →
        (t.sender = none ∨ t.sender = some [] ∨
          2 ≤ (t.sender.getD []).length) →
        handleTransactionProofSubmitted txHash signature ethereumAddress
          fetch verify = none) := by
  refine ⟨?_, ?_, ?_⟩
  · rw [Option.isSome_iff_exists]
    constructor
    · rintro ⟨c, hc⟩
      obtain ⟨t, a, hf, hs, hv, -⟩ :=
        (handleTPS_some_iff txHash signature ethereumAddress fetch verify
          c).mp hc
      exact ⟨t, a, hf, hs, hv⟩
    · rintro ⟨t, a, hf, hs, hv⟩
      exact ⟨_, (handleTPS_some_iff txHash signature ethereumAddress fetch
        verify _).mpr ⟨t, a, hf, hs, hv, rfl⟩⟩
  · intro t c ht hc
    obtain ⟨t', a, hf', hs', hv', rfl⟩ :=
      (handleTPS_some_iff txHash signature ethereumAddress fetch verify
        c).mp hc
    rw [ht] at hf'
    obtain rfl : t' = t := (Option.some_inj.mp hf').symm
    rfl
  · intro t ht hbad
    rcases hr : handleTransactionProofSubmitted txHash signature
        ethereumAddress fetch verify with _ | c
    · rfl
    · obtain ⟨t', a, hf', hs', -, -⟩ :=
        (handleTPS_some_iff txHash signature ethereumAddress fetch verify
          c).mp hr
      rw [ht] at hf'
      obtain rfl : t' = t := (Option.some_inj.mp hf').symm
      rcases hbad with h | h | h <;> rw [hs'] at h <;> simp at h

/-- Witness for C1: a single-sender fetch with a succeeding verifier
mints, and the mint call carries the fetched amount. -/
theorem handleTransactionProofSubmitted_spec_witness :
    (handleTransactionProofSubmitted "0xabcd" "sig" "0xclaimant"
        (fun _ => some witSenderInfo) (fun _ _ _ => true)).isSome ∧
    ({ account := "0xclaimant", amount := 42, txHash := "0xabcd" } :
        MintCall) =
      { account := "0xclaimant", amount := witSenderInfo.amount,
        txHash := "0xabcd" } :=
  ⟨(handleTransactionProofSubmitted_spec "0xabcd" "sig" "0xclaimant"
      (fun _ => some witSenderInfo) (fun _ _ _ => true)).1.mpr
    ⟨witSenderInfo, "msender", rfl, rfl, rfl⟩,
   (handleTransactionProofSubmitted_spec "0xabcd" "sig" "0xclaimant"
      (fun _ => some witSenderInfo) (fun _ _ _ => true)).2.1
    witSenderInfo _ rfl rfl⟩

/-- C3: the `BurnValidateTransaction` handler calls
`validateBurn(burnId)` iff the record's status is `Signed` (2) and the
fetched facts for the record's transaction hash report at least 6
confirmations; otherwise (including a throwing read or fetch) it makes
no contract call. -/
theorem handleBurnValidateTransaction_spec (burnId : Nat)
    (info : BurnRecord)
    (fetch : String → Option BitcoinTransactionInfo) :
    (handleBurnValidateTransaction burnId (some info) fetch =
        [OracleAction.validateBurn burnId] ↔
      info.status = 2 ∧
        ∃ t, fetch (info.transactionHash.drop 2) = some t ∧
          6 ≤ t.confirmations)
    ∧ (handleBurnValidateTransaction burnId (some info) fetch = [] ∨
       handleBurnValidateTransaction burnId (some info) fetch =
         [OracleAction.validateBurn burnId])
    ∧ handleBurnValidateTransaction burnId none fetch = [] := by
  unfold handleBurnValidateTransaction
  by_cases hst : info.status = 2
  · rcases hfetch : fetch (info.transactionHash.drop 2) with _ | t
    · simp [hst, hfetch]
    · by_cases hc : 6 ≤ t.confirmations
      · simp [hst, hfetch, hc]
      · simp [hst, hfetch, hc]
  · simp [hst]

/-- Witness for C3: a `Signed` record whose transaction has 7
confirmations is validated. -/
theorem handleBurnValidateTransaction_spec_witness :
    handleBurnValidateTransaction 5 (some witBurnRecordSigned)
        (fun _ => some witSenderInfo) = [OracleAction.validateBurn 5] :=
  (handleBurnValidateTransaction_spec 5 witBurnRecordSigned
      (fun _ => some witSenderInfo)).1.mpr
    ⟨rfl, witSenderInfo, rfl, by decide⟩

/-- Counterexample for C2: a burn record in status `Requested` (0) with
a perfectly working build step produces no action at all, refuting
"the payout-generation sequence is performed if and only if the record
has status `Requested` (value 0)". -/
theorem handleBurnGenerateTransaction_cex :
    cexBurnRecordRequested.status = 0 ∧
    handleBurnGenerateTransaction 1 (some cexBurnRecordRequested)
        witGenerateAndSign = [] ∧
    ¬ ((handleBurnGenerateTransaction 1 (some cexBurnRecordRequested)
          witGenerateAndSign ≠ []) ↔ cexBurnRecordRequested.status = 0) := by
  refine ⟨rfl, rfl, ?_⟩
  intro h
  exact (h.mpr rfl) rfl

/-- C2 (amended): the payout-generation sequence (build, `burnSigned`
with the transaction bytes and `0x`-prefixed hash, broadcast) is
performed iff the record's status is `GenerateRequested` (1) and the
build step succeeds; for a record in any other status (including
`Requested` (0) and `Signed` (2)) the handler performs no build and no
broadcast. -/
theorem handleBurnGenerateTransaction_amended (burnId : Nat)
    (info : BurnRecord)
    (generateAndSign : String → Int → Option (String × String)) :
    (handleBurnGenerateTransaction burnId (some info) generateAndSign ≠ []
      ↔ info.status = 1 ∧
        ∃ rh, generateAndSign info.bitcoinAddress info.amount = some rh)
    ∧ (∀ raw h, info.status = 1 →
        generateAndSign info.bitcoinAddress info.amount = some (raw, h) →
        handleBurnGenerateTransaction burnId (some info) generateAndSign =
          [OracleAction.build info.bitcoinAddress info.amount,
           OracleAction.burnSigned burnId raw ("0x" ++ h),
           OracleAction.broadcast raw])
    ∧ handleBurnGenerateTransaction burnId none generateAndSign = [] := by
  unfold handleBurnGenerateTransaction
  by_cases hst : info.status = 1
  · rcases hg : generateAndSign info.bitcoinAddress info.amount with
      _ | ⟨raw, h⟩
    · simp [hst, hg]
    · simp [hst, hg]
  · simp [hst]

/-- Witness for C2 (amended): a `GenerateRequested` record with a
succeeding build yields exactly the build/submit/broadcast sequence. -/
theorem handleBurnGenerateTransaction_amended_witness :
    handleBurnGenerateTransaction 3 (some witBurnRecordGenerate)
        witGenerateAndSign =
      [OracleAction.build witBurnRecordGenerate.bitcoinAddress
        witBurnRecordGenerate.amount,
       OracleAction.burnSigned 3 "0200aa" ("0x" ++ "ff00"),
       OracleAction.broadcast "0200aa"] :=
  (handleBurnGenerateTransaction_amended 3 witBurnRecordGenerate
      witGenerateAndSign).2.1 "0200aa" "ff00" rfl rfl

/-- Counterexample for C7: a transaction whose only output pays the
tracked address zero satoshis yields facts with
`receiver = trackedAddress` but `amount = 0`, refuting
"`amountToTrackedAddress > 0` iff `receiverIsTracked`". -/
theorem mkTransactionInfo_cex :
    fetchTransactionInfoConn [some cexZeroOutputInfo] =
        some cexZeroOutputInfo ∧
    cexZeroOutputInfo.receiver = some "tb1qtracked" ∧
    cexZeroOutputInfo.amount = 0 ∧
    ¬ (0 < cexZeroOutputInfo.amount ↔
        cexZeroOutputInfo.receiver = some "tb1qtracked") := by
  refine ⟨rfl, rfl, rfl, ?_⟩
  intro h
  have h0 := h.mpr rfl
  rw [show cexZeroOutputInfo.amount = 0 from rfl] at h0
  exact lt_irrefl 0 h0

/-- C7 (amended): in every fact record built by the output scan, a
positive credited amount implies the tracked address is the receiver,
and a non-tracked receiver forces a zero amount; the converse of the
original claim fails only when every output to the tracked address has
zero value. -/
theorem mkTransactionInfo_amended (trackedAddress txHash : String)
    (vout : List TxOutput) (senders : List String)
    (confirmations : Int) (provider : String) :
    (0 < (mkTransactionInfo trackedAddress txHash vout senders
        confirmations provider).amount →
      (mkTransactionInfo trackedAddress txHash vout senders confirmations
        provider).receiver = some trackedAddress)
    ∧ ((mkTransactionInfo trackedAddress txHash vout senders confirmations
        provider).receiver = none →
      (mkTransactionInfo trackedAddress txHash vout senders confirmations
        provider).amount = 0)
    ∧ ((mkTransactionInfo trackedAddress txHash vout senders confirmations
          provider).receiver = some trackedAddress ∨
       (mkTransactionInfo trackedAddress txHash vout senders confirmations
          provider).receiver = none) := by
  unfold mkTransactionInfo
  cases hb : (scanOutputs trackedAddress vout).2 <;> simp [hb]

/-- Witness for C7 (amended): with no outputs at all the receiver is
`none` and the amount is 0. -/
theorem mkTransactionInfo_amended_witness :
    (mkTransactionInfo "T" "h" [] [] 0 "p").amount = 0 :=
  (mkTransactionInfo_amended "T" "h" [] [] 0 "p").2.1 rfl

/-- Helper: the planner in closed form. -/
theorem calculateAmounts_eq (T t : Int) (w i o : Nat) :
    calculateAmounts T t w i o =
      if T - t - (feeWithMargin w i o : Int) < 0 then
        Except.error "Not enough funds to cover destination + fee."
      else Except.ok (t, T - t - (feeWithMargin w i o : Int),
        (feeWithMargin w i o : Int)) := rfl

/-- Helper: the inflated fee is strictly monotone in the fee rate. -/
theorem feeWithMargin_lt (i o : Nat) :
    ∀ w' w : Nat, w' < w → feeWithMargin w' i o < feeWithMargin w i o := by
  intro w' w hw
  have h1 : estimatedTxSize i o * (w' + 1) ≤ estimatedTxSize i o * w :=
    Nat.mul_le_mul (le_refl _) hw
  rw [Nat.mul_succ] at h1
  have hs : 10 ≤ estimatedTxSize i o := by unfold estimatedTxSize; omega
  unfold feeWithMargin ceilDiv
  omega

/-- C6: the planner returns `send = targetAmount`,
`fee = ceil(1.2 * rate * (10 + 148 * inputs + 34 * outputs))` (stated
through its exact characterization as the least integer at least
`6 * size * rate / 5`), and `change = total - target - fee`; it fails
with the insufficient-funds error exactly when that change is negative
(zero change succeeds); a target above the total always fails; and a
lower fee rate gives a strictly smaller fee and strictly larger
change. -/
theorem calculateAmounts_spec (T t : Int) (w i o : Nat) :
    (estimatedTxSize i o * w * 6 ≤ 5 * feeWithMargin w i o ∧
      5 * feeWithMargin w i o < estimatedTxSize i o * w * 6 + 5)
    ∧ (calculateAmounts T t w i o = Except.ok
        (t, T - t - (feeWithMargin w i o : Int),
          (feeWithMargin w i o : Int)) ↔
        0 ≤ T - t - (feeWithMargin w i o : Int))
    ∧ (calculateAmounts T t w i o =
        Except.error "Not enough funds to cover destination + fee." ↔
        T - t - (feeWithMargin w i o : Int) < 0)
    ∧ (T < t → calculateAmounts T t w i o =
        Except.error "Not enough funds to cover destination + fee.")
    ∧ (∀ w', w' < w →
        feeWithMargin w' i o < feeWithMargin w i o ∧
        T - t - (feeWithMargin w i o : Int) <
          T - t - (feeWithMargin w' i o : Int)) := by
  refine ⟨?_, ?_, ?_, ?_, ?_⟩
  · unfold feeWithMargin ceilDiv
    omega
  · by_cases hc : T - t - (feeWithMargin w i o : Int) < 0
    · rw [calculateAmounts_eq, if_pos hc]
      simp
      omega
    · rw [calculateAmounts_eq, if_neg hc]
      simp
      omega
  · by_cases hc : T - t - (feeWithMargin w i o : Int) < 0
    · rw [calculateAmounts_eq, if_pos hc]
      simp
      omega
    · rw [calculateAmounts_eq, if_neg hc]
      simp
      omega
  · intro hTt
    have hf : (0 : Int) ≤ (feeWithMargin w i o : Int) :=
      Int.natCast_nonneg _
    rw [calculateAmounts_eq, if_pos (by omega)]
  · intro w' hw
    have h := feeWithMargin_lt i o w' w hw
    refine ⟨h, ?_⟩
    have : (feeWithMargin w' i o : Int) < (feeWithMargin w i o : Int) := by
      exact_mod_cast h
    omega

/-- Witness for C6: at the spec's example rates 5 and 2 sat/byte the
fee strictly drops and the change strictly grows, and a target above
the total fails. -/
theorem calculateAmounts_spec_witness :
    (feeWithMargin 2 1 2 < feeWithMargin 5 1 2 ∧
      (100000 : Int) - 50000 - (feeWithMargin 5 1 2 : Int) <
        100000 - 50000 - (feeWithMargin 2 1 2 : Int)) ∧
    calculateAmounts 100000 200000 5 1 2 =
      Except.error "Not enough funds to cover destination + fee." :=
  ⟨(calculateAmounts_spec 100000 50000 5 1 2).2.2.2.2 2 (by decide),
   (calculateAmounts_spec 100000 200000 5 1 2).2.2.2.1 (by decide)⟩

/-- Helper: inserting a result leaves the group representatives
unchanged or appends the new result as the last representative. -/
theorem insertResult_fst (acc : List (BitcoinTransactionInfo × Nat))
    (r : BitcoinTransactionInfo) :
    (insertResult acc r).map Prod.fst = acc.map Prod.fst ∨
    (insertResult acc r).map Prod.fst = acc.map Prod.fst ++ [r] := by
  induction acc with
  | nil => right; rfl
  | cons p rest ih =>
    obtain ⟨a, n⟩ := p
    by_cases hk : resultKey a = resultKey r
    · left; simp [insertResult, hk]
    · rcases ih with h | h
      · left; simp [insertResult, hk, h]
      · right; simp [insertResult, hk, h]

/-- Helper: every group representative accumulated by the count fold
comes from the initial accumulator or from the processed results. -/
theorem mem_foldl_insertResult (l : List BitcoinTransactionInfo) :
    ∀ (acc : List (BitcoinTransactionInfo × Nat))
      (x : BitcoinTransactionInfo),
      x ∈ (l.foldl insertResult acc).map Prod.fst →
      x ∈ acc.map Prod.fst ∨ x ∈ l := by
  induction l with
  | nil => intro acc x hx; exact Or.inl hx
  | cons r rest ih =>
    intro acc x hx
    rw [List.foldl_cons] at hx
    rcases ih (insertResult acc r) x hx with h | h
    · rcases insertResult_fst acc r with he | he
      · rw [he] at h; exact Or.inl h
      · rw [he] at h
        rcases List.mem_append.mp h with h1 | h1
        · exact Or.inl h1
        · simp at h1
          right
          simp [h1]
    · right
      exact List.mem_cons_of_mem _ h

/-- Helper: the strict-maximum fold keeps its seed or picks a list
element. -/
theorem foldl_max_mem :
    ∀ (counts : List (BitcoinTransactionInfo × Nat))
      (p : BitcoinTransactionInfo × Nat),
      counts.foldl (fun best e => if best.2 < e.2 then e else best) p = p ∨
      counts.foldl (fun best e => if best.2 < e.2 then e else best) p
        ∈ counts := by
  intro counts
  induction counts with
  | nil => intro p; left; rfl
  | cons e rest ih =>
    intro p
    rw [List.foldl_cons]
    by_cases hc : p.2 < e.2
    · rw [if_pos hc]
      rcases ih e with h | h
      · right; rw [h]; exact List.mem_cons_self _ _
      · right; exact List.mem_cons_of_mem _ h
    · rw [if_neg hc]
      rcases ih p with h | h
      · left; exact h
      · right; exact List.mem_cons_of_mem _ h

/-- Helper: the reconciled result is drawn from the input list. -/
theorem getMostCommonResult_mem (results : List BitcoinTransactionInfo)
    (r : BitcoinTransactionInfo)
    (h : getMostCommonResult results = some r) : r ∈ results := by
  cases results with
  | nil => simp [getMostCommonResult] at h
  | cons x xs =>
    replace h : (if (x :: xs).length = 1 then some x
        else some (pickMostCommon (countResults (x :: xs)) x)) = some r := h
    by_cases hl : (x :: xs).length = 1
    · rw [if_pos hl] at h
      obtain rfl : x = r := Option.some_inj.mp h
      exact List.mem_cons_self _ _
    · rw [if_neg hl] at h
      obtain rfl : pickMostCommon (countResults (x :: xs)) x = r :=
        Option.some_inj.mp h
      unfold pickMostCommon
      rcases foldl_max_mem (countResults (x :: xs)) (x, 0) with hm | hm
      · rw [hm]
        exact List.mem_cons_self _ _
      · have hfst : (List.foldl
            (fun best e => if best.2 < e.2 then e else best)
            (x, 0) (countResults (x :: xs))).1
            ∈ (countResults (x :: xs)).map Prod.fst :=
          List.mem_map_of_mem Prod.fst hm
        unfold countResults at hfst
        rcases mem_foldl_insertResult (x :: xs) [] _ hfst with h0 | h0
        · simp at h0
        · exact h0

/-- Helper: the reconciliation of a non-empty result list never
throws. -/
theorem getMostCommonResult_cons_isSome (x : BitcoinTransactionInfo)
    (xs : List BitcoinTransactionInfo) :
    ∃ r, getMostCommonResult (x :: xs) = some r := by
  show ∃ r, (if (x :: xs).length = 1 then some x
      else some (pickMostCommon (countResults (x :: xs)) x)) = some r
  by_cases hl : (x :: xs).length = 1
  · exact ⟨x, by rw [if_pos hl]⟩
  · exact ⟨_, by rw [if_neg hl]⟩

/-- C10: the reconciled value is always one input element verbatim —
fields are never merged across providers — a singleton list yields its
element, and a successful fetch returns exactly one provider's
normalized result. -/
theorem getMostCommonResult_verbatim :
    (∀ (results : List BitcoinTransactionInfo) r,
      getMostCommonResult results = some r → r ∈ results)
    ∧ (∀ r : BitcoinTransactionInfo, getMostCommonResult [r] = some r)
    ∧ (∀ (outcomes : List (Option BitcoinTransactionInfo)) r,
        fetchTransactionInfoConn outcomes = some r →
        r ∈ outcomes.filterMap id ∧ some r ∈ outcomes) := by
  refine ⟨getMostCommonResult_mem, fun r => rfl, ?_⟩
  intro outcomes r h
  unfold fetchTransactionInfoConn at h
  by_cases he : (outcomes.filterMap id).isEmpty
  · rw [if_pos he] at h
    exact absurd h (by simp)
  · rw [if_neg he] at h
    have hr : r ∈ outcomes.filterMap id := getMostCommonResult_mem _ r h
    refine ⟨hr, ?_⟩
    obtain ⟨o, ho, hoo⟩ := List.mem_filterMap.mp hr
    obtain rfl : o = some r := hoo
    exact ho

/-- Witness for C10 on a singleton provider list. -/
theorem getMostCommonResult_verbatim_witness :
    witSenderInfo ∈
      ([some witSenderInfo] :
        List (Option BitcoinTransactionInfo)).filterMap id ∧
    some witSenderInfo ∈ [some witSenderInfo] :=
  getMostCommonResult_verbatim.2.2 [some witSenderInfo] witSenderInfo rfl

/-- C4: the fetch throws iff every provider outcome failed or was
unusable; one usable provider outcome suffices for a result, and a
total failure yields nothing partial. -/
theorem fetchTransactionInfoConn_spec
    (outcomes : List (Option BitcoinTransactionInfo)) :
    (fetchTransactionInfoConn outcomes = none ↔ ∀ o ∈ outcomes, o = none)
    ∧ (∀ t, some t ∈ outcomes →
        ∃ r, fetchTransactionInfoConn outcomes = some r) := by
  rcases hfm : outcomes.filterMap id with _ | ⟨x, xs⟩
  · have hall : ∀ o ∈ outcomes, o = none := by
      intro o ho
      cases o with
      | none => rfl
      | some t =>
        have ht : t ∈ outcomes.filterMap id :=
          List.mem_filterMap.mpr ⟨some t, ho, rfl⟩
        rw [hfm] at ht
        simp at ht
    have hnone : fetchTransactionInfoConn outcomes = none := by
      unfold fetchTransactionInfoConn
      rw [hfm]
      rfl
    refine ⟨⟨fun _ => hall, fun _ => hnone⟩, ?_⟩
    intro t ht
    have := hall _ ht
    simp at this
  · have hfetch : fetchTransactionInfoConn outcomes =
        getMostCommonResult (x :: xs) := by
      unfold fetchTransactionInfoConn
      rw [hfm]
      rfl
    obtain ⟨r, hr⟩ := getMostCommonResult_cons_isSome x xs
    constructor
    · constructor
      · intro h
        rw [hfetch, hr] at h
        exact absurd h (by simp)
      · intro hall
        have hx : x ∈ outcomes.filterMap id := by
          rw [hfm]
          exact List.mem_cons_self _ _
        obtain ⟨o, ho, hoo⟩ := List.mem_filterMap.mp hx
        rw [hall o ho] at hoo
        simp at hoo
    · intro t _
      exact ⟨r, by rw [hfetch]; exact hr⟩

/-- Witness for C4: a single usable provider outcome yields a result. -/
theorem fetchTransactionInfoConn_spec_witness :
    ∃ r, fetchTransactionInfoConn [some witSenderInfo] = some r :=
  (fetchTransactionInfoConn_spec [some witSenderInfo]).2 witSenderInfo
    (List.mem_cons_self _ _)

/-- Helper: equation lemma of `insertResult` on a matching head key. -/
theorem insertResult_cons_eq (a : BitcoinTransactionInfo) (n : Nat)
    (rest : List (BitcoinTransactionInfo × Nat))
    (r : BitcoinTransactionInfo) (h : resultKey a = resultKey r) :
    insertResult ((a, n) :: rest) r = (a, n + 1) :: rest := by
  show (if resultKey a = resultKey r then (a, n + 1) :: rest
    else (a, n) :: insertResult rest r) = (a, n + 1) :: rest
  rw [if_pos h]

/-- Helper: equation lemma of `insertResult` on a differing head key. -/
theorem insertResult_cons_ne (a : BitcoinTransactionInfo) (n : Nat)
    (rest : List (BitcoinTransactionInfo × Nat))
    (r : BitcoinTransactionInfo) (h : resultKey a ≠ resultKey r) :
    insertResult ((a, n) :: rest) r = (a, n) :: insertResult rest r := by
  show (if resultKey a = resultKey r then (a, n + 1) :: rest
    else (a, n) :: insertResult rest r) = (a, n) :: insertResult rest r
  rw [if_neg h]

/-- Helper: repeatedly counting a result whose key matches the head
group only increments that group's count. -/
theorem foldl_insert_same (m : BitcoinTransactionInfo) :
    ∀ (k c : Nat) (tail : List (BitcoinTransactionInfo × Nat)),
    List.foldl insertResult ((m, c) :: tail) (List.replicate k m) =
      (m, c + k) :: tail := by
  intro k
  induction k with
  | zero => intro c tail; rfl
  | succ k ih =>
    intro c tail
    have hstep : insertResult ((m, c) :: tail) m = (m, c + 1) :: tail :=
      insertResult_cons_eq m c tail m rfl
    rw [List.replicate_succ, List.foldl_cons, hstep, ih]
    have hc : c + 1 + k = c + (k + 1) := by omega
    rw [hc]

/-- Helper: counting results whose key differs from the head group
passes over that group unchanged. -/
theorem foldl_insert_skip (m d : BitcoinTransactionInfo)
    (hk : resultKey d ≠ resultKey m) :
    ∀ (k c : Nat) (rest : List (BitcoinTransactionInfo × Nat)),
    List.foldl insertResult ((d, c) :: rest) (List.replicate k m) =
      (d, c) :: List.foldl insertResult rest (List.replicate k m) := by
  intro k
  induction k with
  | zero => intro c rest; rfl
  | succ k ih =>
    intro c rest
    have hstep : insertResult ((d, c) :: rest) m =
        (d, c) :: insertResult rest m :=
      insertResult_cons_ne d c rest m hk
    rw [List.replicate_succ, List.foldl_cons, List.foldl_cons, hstep]
    exact ih c (insertResult rest m)

/-- Helper: the counts of a block of identical results. -/
theorem countResults_replicate (m : BitcoinTransactionInfo) (k : Nat) :
    countResults (List.replicate (k + 1) m) = [(m, k + 1)] := by
  unfold countResults
  rw [List.replicate_succ, List.foldl_cons]
  have h1 : insertResult [] m = [(m, 1)] := rfl
  rw [h1, foldl_insert_same m k 1 []]
  have hc : 1 + k = k + 1 := by omega
  rw [hc]

/-- Helper: the maximum search on a two-group count list whose first
group already dominates. -/
theorem pickMostCommon_pair_first (m d x : BitcoinTransactionInfo)
    (c1 c2 : Nat) (h1 : 0 < c1) (h2 : ¬ c1 < c2) :
    pickMostCommon [(m, c1), (d, c2)] x = m := by
  unfold pickMostCommon
  simp only [List.foldl_cons, List.foldl_nil]
  rw [if_pos h1, if_neg h2]

/-- Helper: the maximum search on a two-group count list whose second
group strictly dominates. -/
theorem pickMostCommon_pair_second (d m x : BitcoinTransactionInfo)
    (c1 c2 : Nat) (h1 : 0 < c1) (h2 : c1 < c2) :
    pickMostCommon [(d, c1), (m, c2)] x = m := by
  unfold pickMostCommon
  simp only [List.foldl_cons, List.foldl_nil]
  rw [if_pos h1, if_pos h2]

/-- Helper: the maximum search on a single group. -/
theorem pickMostCommon_single (m x : BitcoinTransactionInfo) (c : Nat)
    (h1 : 0 < c) : pickMostCommon [(m, c)] x = m := by
  unfold pickMostCommon
  simp only [List.foldl_cons, List.foldl_nil]
  rw [if_pos h1]

/-- Helper: a dissenting result surrounded by two blocks of an agreeing
majority (at least two agreeing results in total) reconciles to the
majority value. -/
theorem getMostCommonResult_one_dissent (m d : BitcoinTransactionInfo)
    (hk : resultKey d ≠ resultKey m) :
    ∀ (j k : Nat), 2 ≤ j + k →
    getMostCommonResult (List.replicate j m ++ d :: List.replicate k m) =
      some m := by
  intro j k hjk
  cases j with
  | zero =>
    cases k with
    | zero => omega
    | succ k' =>
      cases k' with
      | zero => omega
      | succ k'' =>
        show (if (d :: List.replicate (k'' + 1 + 1) m).length = 1 then
            some d
          else some (pickMostCommon
            (countResults (d :: List.replicate (k'' + 1 + 1) m)) d)) =
          some m
        rw [if_neg (by simp)]
        have hcount : countResults (d :: List.replicate (k'' + 1 + 1) m) =
            [(d, 1), (m, k'' + 1 + 1)] := by
          unfold countResults
          rw [List.foldl_cons]
          have h1 : insertResult [] d = [(d, 1)] := rfl
          rw [h1, foldl_insert_skip m d hk]
          have h2 := countResults_replicate m (k'' + 1)
          unfold countResults at h2
          rw [h2]
        rw [hcount, pickMostCommon_pair_second d m d 1 (k'' + 1 + 1)
          (by omega) (by omega)]
  | succ j' =>
    have hsplit : List.replicate (j' + 1) m ++ d :: List.replicate k m =
        m :: (List.replicate j' m ++ d :: List.replicate k m) := by
      rw [List.replicate_succ, List.cons_append]
    rw [hsplit]
    show (if (m :: (List.replicate j' m ++ d ::
        List.replicate k m)).length = 1 then some m
      else some (pickMostCommon (countResults
        (m :: (List.replicate j' m ++ d :: List.replicate k m))) m)) =
      some m
    have hlen2 : (m :: (List.replicate j' m ++ d ::
        List.replicate k m)).length ≠ 1 := by
      simp
    rw [if_neg hlen2]
    have hcount : countResults (m :: (List.replicate j' m ++ d ::
        List.replicate k m)) = [(m, j' + 1 + k), (d, 1)] := by
      unfold countResults
      rw [← hsplit, List.foldl_append]
      have h2 := countResults_replicate m j'
      unfold countResults at h2
      rw [h2, List.foldl_cons]
      have hins : insertResult [(m, j' + 1)] d = [(m, j' + 1), (d, 1)] := by
        rw [insertResult_cons_ne m (j' + 1) [] d (fun hh => hk hh.symm)]
        rfl
      rw [hins, foldl_insert_same m k (j' + 1) [(d, 1)]]
    rw [hcount, pickMostCommon_pair_first m d m (j' + 1 + k) 1
      (by omega) (by omega)]

/-- C5: field-wise reconciliation of several provider results: a list
of identical results returns that value; with exactly one dissenting
result among at least three, the majority value is returned; and on an
exact tie between two groups the one seen earliest in the settled
result list (the providers' registration order, which
`Promise.allSettled` preserves) wins. -/
theorem getMostCommonResult_consensus :
    (∀ (r : BitcoinTransactionInfo)
      (results : List BitcoinTransactionInfo),
      results ≠ [] → (∀ x ∈ results, x = r) →
      getMostCommonResult results = some r)
    ∧ (∀ (m d : BitcoinTransactionInfo)
        (pre post : List BitcoinTransactionInfo),
        resultKey d ≠ resultKey m →
        (∀ x ∈ pre, x = m) → (∀ x ∈ post, x = m) →
        2 ≤ pre.length + post.length →
        getMostCommonResult (pre ++ d :: post) = some m)
    ∧ (∀ a b : BitcoinTransactionInfo, resultKey a ≠ resultKey b →
        getMostCommonResult [a, b] = some a) := by
  refine ⟨?_, ?_, ?_⟩
  · intro r results hne hall
    obtain hrep := List.eq_replicate_of_mem hall
    rw [hrep]
    rcases hn : results.length with _ | n
    · rw [List.length_eq_zero] at hn
      exact absurd hn hne
    · cases n with
      | zero => rfl
      | succ n =>
        show (if (List.replicate (n + 1 + 1) r).length = 1 then some r
          else some (pickMostCommon
            (countResults (List.replicate (n + 1 + 1) r)) r)) = some r
        rw [if_neg (by simp), countResults_replicate,
          pickMostCommon_single r r (n + 1 + 1) (by omega)]
  · intro m d pre post hk hpre hpost hlen
    rw [List.eq_replicate_of_mem hpre, List.eq_replicate_of_mem hpost]
    exact getMostCommonResult_one_dissent m d hk pre.length post.length
      hlen
  · intro a b hk
    show (if ([a, b] : List BitcoinTransactionInfo).length = 1 then some a
      else some (pickMostCommon (countResults [a, b]) a)) = some a
    rw [if_neg (by simp)]
    have hcount : countResults [a, b] = [(a, 1), (b, 1)] := by
      unfold countResults
      rw [List.foldl_cons, List.foldl_cons]
      have h1 : insertResult [] a = [(a, 1)] := rfl
      rw [h1]
      have h2 : insertResult [(a, 1)] b = [(a, 1), (b, 1)] := by
        rw [insertResult_cons_ne a 1 [] b hk]
        rfl
      rw [h2, List.foldl_nil]
    rw [hcount, pickMostCommon_pair_first a b a 1 1 (by omega) (by omega)]

/-- Witness for C5: three concrete results with one dissenting
confirmation count reconcile to the majority value, and a two-way tie
goes to the earlier result. -/
theorem getMostCommonResult_consensus_witness :
    getMostCommonResult [witSenderInfo,
        { witSenderInfo with confirmations := 3 }, witSenderInfo] =
      some witSenderInfo ∧
    getMostCommonResult [{ witSenderInfo with confirmations := 3 },
        witSenderInfo] =
      some { witSenderInfo with confirmations := 3 } := by
  constructor
  · exact getMostCommonResult_consensus.2.1 witSenderInfo
      { witSenderInfo with confirmations := 3 } [witSenderInfo]
      [witSenderInfo] (by decide)
      (by intro x hx; simpa using hx) (by intro x hx; simpa using hx)
      (by decide)
  · exact getMostCommonResult_consensus.2.2
      { witSenderInfo with confirmations := 3 } witSenderInfo (by decide)

/-- Helper: zero expands to no bytes whatever the fuel. -/
theorem natBytesBEAux_zero_right (fuel : Nat) :
    natBytesBEAux fuel 0 = [] := by
  cases fuel <;> rfl

/-- Helper: appending a final byte multiplies the value by the base. -/
theorem bytesToNatBE_append_singleton (l : List Nat) (b : Nat) :
    bytesToNatBE (l ++ [b]) = bytesToNatBE l * 256 + b := by
  unfold bytesToNatBE
  rw [List.foldl_append]
  rfl

/-- Helper: the big-endian expansion evaluates back to its input. -/
theorem natBytesBEAux_val :
    ∀ (fuel n : Nat), n ≤ fuel →
    bytesToNatBE (natBytesBEAux fuel n) = n := by
  intro fuel
  induction fuel with
  | zero =>
    intro n hn
    obtain rfl : n = 0 := Nat.le_zero.mp hn
    rfl
  | succ fuel ih =>
    intro n hn
    cases n with
    | zero => rfl
    | succ n' =>
      show bytesToNatBE (natBytesBEAux fuel ((n' + 1) / 256) ++
        [(n' + 1) % 256]) = n' + 1
      rw [bytesToNatBE_append_singleton]
      have hdiv : (n' + 1) / 256 ≤ fuel := by
        have := Nat.div_lt_self (Nat.succ_pos n')
          (by norm_num : 1 < 256)
        omega
      rw [ih _ hdiv]
      omega

/-- Helper: the expansion of a positive number is non-empty with a
non-zero leading byte (no spurious leading zero). -/
theorem natBytesBEAux_head_pos :
    ∀ (fuel n : Nat), 1 ≤ n → n ≤ fuel →
    ∃ h t, natBytesBEAux fuel n = h :: t ∧ h ≠ 0 := by
  intro fuel
  induction fuel with
  | zero => intro n h1 h2; omega
  | succ fuel ih =>
    intro n h1 h2
    cases n with
    | zero => omega
    | succ n' =>
      show ∃ h t, natBytesBEAux fuel ((n' + 1) / 256) ++
        [(n' + 1) % 256] = h :: t ∧ h ≠ 0
      by_cases hq : (n' + 1) / 256 = 0
      · rw [hq, natBytesBEAux_zero_right]
        refine ⟨(n' + 1) % 256, [], rfl, ?_⟩
        have hlt : n' + 1 < 256 := by omega
        omega
      · obtain ⟨h, t, heq, hne⟩ := ih ((n' + 1) / 256) (by omega) (by
          have := Nat.div_lt_self (Nat.succ_pos n')
            (by norm_num : 1 < 256)
          omega)
        rw [heq]
        exact ⟨h, t ++ [(n' + 1) % 256], rfl, hne⟩

/-- Helper: every produced byte is below the base. -/
theorem natBytesBEAux_lt :
    ∀ (fuel n : Nat), ∀ b ∈ natBytesBEAux fuel n, b < 256 := by
  intro fuel
  induction fuel with
  | zero =>
    intro n b hb
    cases n <;> simp [natBytesBEAux] at hb
  | succ fuel ih =>
    intro n b hb
    cases n with
    | zero => simp [natBytesBEAux_zero_right] at hb
    | succ n' =>
      replace hb : b ∈ natBytesBEAux fuel ((n' + 1) / 256) ++
        [(n' + 1) % 256] := hb
      rcases List.mem_append.mp hb with h | h
      · exact ih _ b h
      · simp at h
        omega

/-- Helper: the value of the byte expansion of any number. -/
theorem bytesToNatBE_bnToArrayBE (n : Nat) :
    bytesToNatBE (bnToArrayBE n) = n := by
  unfold bnToArrayBE
  by_cases h : n = 0
  · rw [if_pos h, h]
    rfl
  · rw [if_neg h]
    exact natBytesBEAux_val n n (le_refl n)

/-- Helper: the sign-padding never changes the encoded value. -/
theorem bytesToNatBE_toPositiveBuffer (l : List Nat) :
    bytesToNatBE (toPositiveBuffer l) = bytesToNatBE l := by
  cases l with
  | nil => rfl
  | cons b t =>
    show bytesToNatBE (if b &&& 128 ≠ 0 then 0 :: b :: t else b :: t) =
      bytesToNatBE (b :: t)
    by_cases h : b &&& 128 ≠ 0
    · rw [if_pos h]
      unfold bytesToNatBE
      norm_num
    · rw [if_neg h]

/-- Helper: reading an appended list before the boundary. -/
theorem getD_append_lt (l l' : List Nat) :
    ∀ (n : Nat), n < l.length → (l ++ l').getD n 0 = l.getD n 0 := by
  induction l with
  | nil => intro n h; simp at h
  | cons a t ih =>
    intro n h
    cases n with
    | zero => rfl
    | succ n' =>
      show (t ++ l').getD n' 0 = t.getD n' 0
      apply ih
      simp [List.length_cons] at h
      omega

/-- Helper: reading an appended list beyond the boundary. -/
theorem getD_append_ge (l l' : List Nat) :
    ∀ (n : Nat), l.length ≤ n →
    (l ++ l').getD n 0 = l'.getD (n - l.length) 0 := by
  induction l with
  | nil => intro n h; simp
  | cons a t ih =>
    intro n h
    cases n with
    | zero => simp at h
    | succ n' =>
      show (t ++ l').getD n' 0 = l'.getD (n' + 1 - (a :: t).length) 0
      rw [show n' + 1 - (a :: t).length = n' - t.length from by
        simp [List.length_cons]]
      apply ih
      simp [List.length_cons] at h
      omega

/-- Helper: reading past four leading elements. -/
theorem getD_cons4 (a b c d : Nat) (l : List Nat) (k : Nat) :
    (a :: b :: c :: d :: l).getD (4 + k) 0 = l.getD k 0 := by
  rw [Nat.add_comm]
  rfl

set_option maxRecDepth 2000 in
/-- Helper: on a byte, testing the high bit is testing `128 ≤ b`. -/
theorem land128_iff : ∀ b : Nat, b < 256 → (b &&& 128 ≠ 0 ↔ 128 ≤ b) := by
  decide

/-- Helper: the decoder's guard chain with its local variables
substituted out. -/
theorem bip66decode_eval (buffer : List Nat) :
    bip66decode buffer =
      (if buffer.length < 8 then none
      else if 72 < buffer.length then none
      else if buffer.getD 0 0 ≠ 48 then none
      else if buffer.getD 1 0 ≠ buffer.length - 2 then none
      else if buffer.getD 2 0 ≠ 2 then none
      else if buffer.getD 3 0 = 0 then none
      else if buffer.length ≤ 5 + buffer.getD 3 0 then none
      else if buffer.getD (4 + buffer.getD 3 0) 0 ≠ 2 then none
      else if buffer.getD (5 + buffer.getD 3 0) 0 = 0 then none
      else if 6 + buffer.getD 3 0 + buffer.getD (5 + buffer.getD 3 0) 0 ≠
          buffer.length then none
      else if buffer.getD 4 0 &&& 128 ≠ 0 then none
      else if 1 < buffer.getD 3 0 ∧ buffer.getD 4 0 = 0 ∧
          buffer.getD 5 0 &&& 128 = 0 then none
      else if buffer.getD (buffer.getD 3 0 + 6) 0 &&& 128 ≠ 0 then none
      else if 1 < buffer.getD (5 + buffer.getD 3 0) 0 ∧
          buffer.getD (buffer.getD 3 0 + 6) 0 = 0 ∧
          buffer.getD (buffer.getD 3 0 + 7) 0 &&& 128 = 0 then none
      else some ((buffer.drop 4).take (buffer.getD 3 0),
        buffer.drop (6 + buffer.getD 3 0))) := rfl

/-- Helper: decoding a well-formed DER layout recovers the two
component buffers. -/
theorem bip66decode_of_layout (rb sb : List Nat)
    (hr1 : 1 ≤ rb.length) (hr33 : rb.length ≤ 33)
    (hrneg : rb.headD 0 &&& 128 = 0)
    (hrpad : ¬(1 < rb.length ∧ rb.headD 0 = 0 ∧
      rb.getD 1 0 &&& 128 = 0))
    (hs1 : 1 ≤ sb.length) (hs33 : sb.length ≤ 33)
    (hsneg : sb.headD 0 &&& 128 = 0)
    (hspad : ¬(1 < sb.length ∧ sb.headD 0 = 0 ∧
      sb.getD 1 0 &&& 128 = 0)) :
    bip66decode ([48, 4 + rb.length + sb.length, 2, rb.length] ++ rb
      ++ [2, sb.length] ++ sb) = some (rb, sb) := by
  rcases rb with _ | ⟨rb0, rbt⟩
  · exact absurd hr1 (by simp)
  rcases sb with _ | ⟨sb0, sbt⟩
  · exact absurd hs1 (by simp)
  rw [bip66decode_eval]
  rw [show [48, 4 + (rb0 :: rbt).length + (sb0 :: sbt).length, 2,
        (rb0 :: rbt).length] ++ (rb0 :: rbt) ++ [2, (sb0 :: sbt).length]
        ++ (sb0 :: sbt) =
      (48 : Nat) :: (4 + (rb0 :: rbt).length + (sb0 :: sbt).length) :: 2
        :: (rb0 :: rbt).length :: ((rb0 :: rbt) ++
          ([2, (sb0 :: sbt).length] ++ (sb0 :: sbt))) from by simp]
  have hlen : ((48 : Nat) :: (4 + (rb0 :: rbt).length +
      (sb0 :: sbt).length) :: 2 :: (rb0 :: rbt).length ::
      ((rb0 :: rbt) ++ ([2, (sb0 :: sbt).length] ++
        (sb0 :: sbt)))).length =
      6 + (rb0 :: rbt).length + (sb0 :: sbt).length := by
    simp only [List.length_cons, List.length_append, List.length_nil]
    omega
  have h0 : ((48 : Nat) :: (4 + (rb0 :: rbt).length +
      (sb0 :: sbt).length) :: 2 :: (rb0 :: rbt).length ::
      ((rb0 :: rbt) ++ ([2, (sb0 :: sbt).length] ++
        (sb0 :: sbt)))).getD 0 0 = 48 := rfl
  have h1 : ((48 : Nat) :: (4 + (rb0 :: rbt).length +
      (sb0 :: sbt).length) :: 2 :: (rb0 :: rbt).length ::
      ((rb0 :: rbt) ++ ([2, (sb0 :: sbt).length] ++
        (sb0 :: sbt)))).getD 1 0 =
      4 + (rb0 :: rbt).length + (sb0 :: sbt).length := rfl
  have h2 : ((48 : Nat) :: (4 + (rb0 :: rbt).length +
      (sb0 :: sbt).length) :: 2 :: (rb0 :: rbt).length ::
      ((rb0 :: rbt) ++ ([2, (sb0 :: sbt).length] ++
        (sb0 :: sbt)))).getD 2 0 = 2 := rfl
  have h3 : ((48 : Nat) :: (4 + (rb0 :: rbt).length +
      (sb0 :: sbt).length) :: 2 :: (rb0 :: rbt).length ::
      ((rb0 :: rbt) ++ ([2, (sb0 :: sbt).length] ++
        (sb0 :: sbt)))).getD 3 0 = (rb0 :: rbt).length := rfl
  have h4 : ((48 : Nat) :: (4 + (rb0 :: rbt).length +
      (sb0 :: sbt).length) :: 2 :: (rb0 :: rbt).length ::
      ((rb0 :: rbt) ++ ([2, (sb0 :: sbt).length] ++
        (sb0 :: sbt)))).getD 4 0 = rb0 := rfl
  have h4lr : ((48 : Nat) :: (4 + (rb0 :: rbt).length +
      (sb0 :: sbt).length) :: 2 :: (rb0 :: rbt).length ::
      ((rb0 :: rbt) ++ ([2, (sb0 :: sbt).length] ++
        (sb0 :: sbt)))).getD (4 + (rb0 :: rbt).length) 0 = 2 := by
    rw [getD_cons4, getD_append_ge _ _ _ (le_refl _), Nat.sub_self]
    rfl
  have h5lr : ((48 : Nat) :: (4 + (rb0 :: rbt).length +
      (sb0 :: sbt).length) :: 2 :: (rb0 :: rbt).length ::
      ((rb0 :: rbt) ++ ([2, (sb0 :: sbt).length] ++
        (sb0 :: sbt)))).getD (5 + (rb0 :: rbt).length) 0 =
      (sb0 :: sbt).length := by
    rw [show 5 + (rb0 :: rbt).length = 4 + (1 + (rb0 :: rbt).length) from
      by omega]
    rw [getD_cons4, getD_append_ge _ _ _ (by omega),
      show 1 + (rb0 :: rbt).length - (rb0 :: rbt).length = 1 from by omega]
    rfl
  have h6 : ((48 : Nat) :: (4 + (rb0 :: rbt).length +
      (sb0 :: sbt).length) :: 2 :: (rb0 :: rbt).length ::
      ((rb0 :: rbt) ++ ([2, (sb0 :: sbt).length] ++
        (sb0 :: sbt)))).getD ((rb0 :: rbt).length + 6) 0 = sb0 := by
    rw [show (rb0 :: rbt).length + 6 = 4 + ((rb0 :: rbt).length + 2) from
      by omega]
    rw [getD_cons4, getD_append_ge _ _ _ (by omega),
      show (rb0 :: rbt).length + 2 - (rb0 :: rbt).length = 2 from by omega]
    rfl
  have h7 : ((48 : Nat) :: (4 + (rb0 :: rbt).length +
      (sb0 :: sbt).length) :: 2 :: (rb0 :: rbt).length ::
      ((rb0 :: rbt) ++ ([2, (sb0 :: sbt).length] ++
        (sb0 :: sbt)))).getD ((rb0 :: rbt).length + 7) 0 =
      (sb0 :: sbt).getD 1 0 := by
    rw [show (rb0 :: rbt).length + 7 = 4 + ((rb0 :: rbt).length + 3) from
      by omega]
    rw [getD_cons4, getD_append_ge _ _ _ (by omega),
      show (rb0 :: rbt).length + 3 - (rb0 :: rbt).length = 3 from by omega]
    rfl
  rw [hlen, h0, h1, h2, h3, h4, h4lr, h5lr, h6, h7]
  have hrneg' : rb0 &&& 128 = 0 := hrneg
  have hsneg' : sb0 &&& 128 = 0 := hsneg
  rw [if_neg (by omega), if_neg (by omega), if_neg (fun h => h rfl),
    if_neg (by omega), if_neg (fun h => h rfl), if_neg (by simp),
    if_neg (by omega), if_neg (fun h => h rfl), if_neg (by simp),
    if_neg (fun h => h rfl), if_neg (fun h => h hrneg')]
  have hcond12 : ¬(1 < (rb0 :: rbt).length ∧ rb0 = 0 ∧
      ((48 : Nat) :: (4 + (rb0 :: rbt).length + (sb0 :: sbt).length) :: 2
        :: (rb0 :: rbt).length :: ((rb0 :: rbt) ++
          ([2, (sb0 :: sbt).length] ++ (sb0 :: sbt)))).getD 5 0 &&& 128
        = 0) := by
    rintro ⟨ha, hb, hc⟩
    have h5 : ((48 : Nat) :: (4 + (rb0 :: rbt).length +
        (sb0 :: sbt).length) :: 2 :: (rb0 :: rbt).length ::
        ((rb0 :: rbt) ++ ([2, (sb0 :: sbt).length] ++
          (sb0 :: sbt)))).getD 5 0 = (rb0 :: rbt).getD 1 0 := by
      show (rbt ++ ([2, (sb0 :: sbt).length] ++ (sb0 :: sbt))).getD 0 0 =
        (rb0 :: rbt).getD 1 0
      cases rbt with
      | nil => exact absurd ha (by simp)
      | cons r1 rt => rfl
    rw [h5] at hc
    exact hrpad ⟨ha, hb, hc⟩
  have hspad' : ¬(1 < (sb0 :: sbt).length ∧ sb0 = 0 ∧
      (sb0 :: sbt).getD 1 0 &&& 128 = 0) := hspad
  rw [if_neg hcond12, if_neg (fun h => h hsneg'), if_neg hspad']
  rw [show ((48 : Nat) :: (4 + (rb0 :: rbt).length +
      (sb0 :: sbt).length) :: 2 :: (rb0 :: rbt).length ::
      ((rb0 :: rbt) ++ ([2, (sb0 :: sbt).length] ++
        (sb0 :: sbt)))).drop 4 =
    (rb0 :: rbt) ++ ([2, (sb0 :: sbt).length] ++ (sb0 :: sbt)) from rfl]
  rw [List.take_left]
  have hdrop6 : ((48 : Nat) :: (4 + (rb0 :: rbt).length +
      (sb0 :: sbt).length) :: 2 :: (rb0 :: rbt).length ::
      ((rb0 :: rbt) ++ ([2, (sb0 :: sbt).length] ++
        (sb0 :: sbt)))).drop (6 + (rb0 :: rbt).length) = sb0 :: sbt := by
    have hC : (48 : Nat) :: (4 + (rb0 :: rbt).length +
        (sb0 :: sbt).length) :: 2 :: (rb0 :: rbt).length ::
        ((rb0 :: rbt) ++ ([2, (sb0 :: sbt).length] ++ (sb0 :: sbt))) =
        ((48 : Nat) :: (4 + (rb0 :: rbt).length + (sb0 :: sbt).length) ::
          2 :: (rb0 :: rbt).length :: ((rb0 :: rbt) ++
            [2, (sb0 :: sbt).length])) ++ (sb0 :: sbt) := by
      simp [List.append_assoc]
    rw [hC, List.drop_left' (by
      simp only [List.length_cons, List.length_append, List.length_nil]
      omega)]
  rw [hdrop6]

/-- C8: the normalization prepends exactly one `0x00` byte iff the top
byte of the component's encoding has the high bit set, so the leading
byte of an encoded component is always below `0x80` (never read as
negative), and decoding the DER bytes produced by `encodeDerSignature`
recovers the original `(r, s)` pair. -/
theorem encodeDerSignature_roundtrip :
    (∀ (b : Nat) (rest : List Nat), b < 256 →
      (toPositiveBuffer (b :: rest) = 0 :: b :: rest ↔ 128 ≤ b) ∧
      (toPositiveBuffer (b :: rest) = b :: rest ↔ b < 128) ∧
      (toPositiveBuffer (b :: rest)).headD 0 < 128)
    ∧ (∀ (r s : Nat) (bytes : List Nat),
        encodeDerSignature r s = some bytes →
        ∃ rb sb, bip66decode bytes = some (rb, sb) ∧
          bytesToNatBE rb = r ∧ bytesToNatBE sb = s) := by
  constructor
  · intro b rest hb
    have hiff := land128_iff b hb
    have heq : toPositiveBuffer (b :: rest) =
        if b &&& 128 ≠ 0 then 0 :: b :: rest else b :: rest := rfl
    by_cases h : b &&& 128 ≠ 0
    · rw [heq, if_pos h]
      have hge := hiff.mp h
      refine ⟨⟨fun _ => hge, fun _ => rfl⟩, ⟨?_, ?_⟩, by norm_num⟩
      · intro hcontra
        exfalso
        have := congrArg List.length hcontra
        simp at this
      · intro hlt
        omega
    · rw [heq, if_neg h]
      have hlt : b < 128 := by
        rcases Nat.lt_or_ge b 128 with h' | h'
        · exact h'
        · exact absurd (hiff.mpr h') h
      refine ⟨⟨?_, ?_⟩, ⟨fun _ => hlt, fun _ => rfl⟩, ?_⟩
      · intro hcontra
        exfalso
        have := congrArg List.length hcontra
        simp at this
      · intro hge
        omega
      · show b < 128
        exact hlt
  · intro r s bytes henc
    unfold encodeDerSignature bip66encode at henc
    split_ifs at henc with hg1 hg2 hg3 hg4 hg5 hg6 hg7 hg8
    obtain rfl : [48, 4 + (toPositiveBuffer (bnToArrayBE r)).length +
        (toPositiveBuffer (bnToArrayBE s)).length, 2,
        (toPositiveBuffer (bnToArrayBE r)).length] ++
        toPositiveBuffer (bnToArrayBE r) ++
        [2, (toPositiveBuffer (bnToArrayBE s)).length] ++
        toPositiveBuffer (bnToArrayBE s) = bytes :=
      Option.some_inj.mp henc
    refine ⟨toPositiveBuffer (bnToArrayBE r),
      toPositiveBuffer (bnToArrayBE s), ?_, ?_, ?_⟩
    · exact bip66decode_of_layout _ _ (by omega) (by omega) (by omega)
        hg7 (by omega) (by omega) (by omega) hg8
    · rw [bytesToNatBE_toPositiveBuffer, bytesToNatBE_bnToArrayBE]
    · rw [bytesToNatBE_toPositiveBuffer, bytesToNatBE_bnToArrayBE]

/-- Witness for C8: a component with the high bit set gains one zero
byte and the concrete DER bytes decode back to the pair. -/
theorem encodeDerSignature_roundtrip_witness :
    encodeDerSignature 128 1 = some [48, 7, 2, 2, 0, 128, 2, 1, 1] ∧
    (∃ rb sb, bip66decode [48, 7, 2, 2, 0, 128, 2, 1, 1] =
        some (rb, sb) ∧ bytesToNatBE rb = 128 ∧ bytesToNatBE sb = 1) ∧
    (toPositiveBuffer (200 :: []) = 0 :: 200 :: [] ↔ 128 ≤ 200) :=
  ⟨rfl,
   encodeDerSignature_roundtrip.2 128 1 _ rfl,
   (encodeDerSignature_roundtrip.1 200 [] (by norm_num)).1⟩
